import Mathlib

/-!
Shallow embedding of the C-string, environment and networking surfaces of the
`sgx_trts`/`sgx_tstd` crates (files `sgx_trts/src/c_str.rs`,
`sgx_tstd/src/env.rs`, `sgx_tstd/src/net/mod.rs`).

Byte buffers are modelled as `List Nat`; machine pointers and allocation are
irrelevant to the verified properties, so an owned or borrowed buffer is just
its byte sequence.  Fallible operations return `Except`; operations that can
panic return `Outcome`, whose `panics` constructor marks a Rust panic.
-/

namespace SgxCStr

/-- Byte buffers (`Vec<u8>`, `Box<[u8]>`, `&[u8]`) are byte lists. -/
abbrev Bytes := List Nat

/-- Embedding of `memchr::memchr(needle, haystack)`: index of the first
occurrence of `needle` in the byte list, if any. -/
def memchr (needle : Nat) : Bytes → Option Nat
  | [] => none
  | b :: rest => if b = needle then some 0 else (memchr needle rest).map (· + 1)

/-- `CString` (c_str.rs line 125): an owned buffer `inner: Box<[u8]>`.
Invariant 1 of the source: the slice ends with a zero byte, length ≥ 1.
Invariant 2: the slice contains only one zero byte. -/
structure CString where
  inner : Bytes
deriving DecidableEq

/-- The `CString` invariants from the source comments (c_str.rs lines 126-127):
the buffer ends in a zero byte (hence is nonempty) and contains no zero byte
before the last position. -/
def CStringWF (c : CString) : Prop :=
  c.inner.getLast? = some 0 ∧ 0 ∉ c.inner.dropLast

instance (c : CString) : Decidable (CStringWF c) := by
  unfold CStringWF
  infer_instance

/-- A borrowed `&CStr` is the viewed byte sequence, terminator included. -/
abbrev CStrBytes := Bytes

/-- The `CStr` well-formedness assumed of memory a `&CStr` points at: same
shape as the `CString` invariant. -/
def CStrWF (s : CStrBytes) : Prop :=
  s.getLast? = some 0 ∧ 0 ∉ s.dropLast

/-- `NulError(usize, Vec<u8>)` (c_str.rs line 231). -/
structure NulError where
  pos : Nat
  bytes : Bytes
deriving DecidableEq

/-- `NulError::nul_position` (c_str.rs line 1043). -/
def NulError.nul_position (e : NulError) : Nat := e.pos

/-- `NulError::into_vec` (c_str.rs line 1058). -/
def NulError.into_vec (e : NulError) : Bytes := e.bytes

/-- `FromBytesWithNulErrorKind` (c_str.rs line 330). -/
inductive FromBytesWithNulErrorKind where
  | interiorNul (pos : Nat)
  | notNulTerminated
deriving DecidableEq

/-- `FromBytesWithNulError` (c_str.rs line 255). -/
structure FromBytesWithNulError where
  kind : FromBytesWithNulErrorKind
deriving DecidableEq

/-- `FromVecWithNulError` (c_str.rs line 310): error kind plus the input
vector it retains. -/
structure FromVecWithNulError where
  error_kind : FromBytesWithNulErrorKind
  bytes : Bytes
deriving DecidableEq

/-- `CString::from_vec_unchecked` (c_str.rs lines 496-502): push a trailing
zero onto the vector and take it as the inner buffer. -/
def CString.from_vec_unchecked (v : Bytes) : CString :=
  ⟨v ++ [0]⟩

/-- `CString::_new` (c_str.rs lines 472-477): scan for a zero byte with
`memchr`; a hit at `i` is `NulError(i, bytes)`, otherwise append the
terminator via `from_vec_unchecked`. -/
def CString._new (bytes : Bytes) : Except NulError CString :=
  match memchr 0 bytes with
  | some i => .error ⟨i, bytes⟩
  | none => .ok (CString.from_vec_unchecked bytes)

/-- `CString::as_bytes` (c_str.rs lines 679-683): the inner buffer without
its final byte (`inner[..len-1]`). -/
def CString.as_bytes (c : CString) : Bytes :=
  c.inner.take (c.inner.length - 1)

/-- `CString::as_bytes_with_nul` (c_str.rs lines 697-700): the whole inner
buffer. -/
def CString.as_bytes_with_nul (c : CString) : Bytes :=
  c.inner

/-- `CString::into_bytes` (c_str.rs lines 640-645): the inner buffer with the
trailing nul popped off. -/
def CString.into_bytes (c : CString) : Bytes :=
  c.inner.dropLast

/-- `CString::into_bytes_with_nul` (c_str.rs lines 659-661). -/
def CString.into_bytes_with_nul (c : CString) : Bytes :=
  c.inner

/-- `CString::from_vec_with_nul_unchecked` (c_str.rs lines 764-768): adopt
the vector as the inner buffer unchanged. -/
def CString.from_vec_with_nul_unchecked (v : Bytes) : CString :=
  ⟨v⟩

/-- `CString::from_vec_with_nul` (c_str.rs lines 805-822): find the first
zero byte; accept when it sits at the last index, report `InteriorNul` at its
position when it sits earlier, and `NotNulTerminated` when there is none.
The error retains the input vector. -/
def CString.from_vec_with_nul (v : Bytes) : Except FromVecWithNulError CString :=
  match memchr 0 v with
  | some nul_pos =>
    if nul_pos + 1 = v.length then
      .ok (CString.from_vec_with_nul_unchecked v)
    else
      .error ⟨.interiorNul nul_pos, v⟩
  | none => .error ⟨.notNulTerminated, v⟩

/-- `CStr::from_bytes_with_nul` (c_str.rs lines 1162-1172): same scan as
`from_vec_with_nul` on a borrowed slice; on success the `CStr` is the input
slice itself. -/
def CStr.from_bytes_with_nul (bytes : Bytes) : Except FromBytesWithNulError CStrBytes :=
  match memchr 0 bytes with
  | some nul_pos =>
    if nul_pos + 1 ≠ bytes.length then
      .error ⟨.interiorNul nul_pos⟩
    else
      .ok bytes
  | none => .error ⟨.notNulTerminated⟩

/-- `CStr::to_bytes_with_nul` (c_str.rs lines 1294-1296): the viewed bytes. -/
def CStr.to_bytes_with_nul (s : CStrBytes) : Bytes := s

/-- `CStr::to_bytes` (c_str.rs lines 1270-1274): the viewed bytes without the
final byte. -/
def CStr.to_bytes (s : CStrBytes) : Bytes :=
  s.take (s.length - 1)

/-- `ToOwned for CStr` (c_str.rs lines 1409-1413): the owned copy adopts
`to_bytes_with_nul` as its inner buffer. -/
def CStr.to_owned (s : CStrBytes) : CString :=
  ⟨CStr.to_bytes_with_nul s⟩

/-- `Default for &CStr` (c_str.rs lines 876-881): the one-byte buffer `[0]`. -/
def CStr.default_value : CStrBytes := [0]

/-- `Default for CString` (c_str.rs lines 883-889): `to_owned` of the default
`&CStr`. -/
def CString.default_value : CString :=
  CStr.to_owned CStr.default_value

/-- `From<Vec<NonZeroU8>> for CString` (c_str.rs lines 930-948): reinterpret
the nonzero bytes and call `from_vec_unchecked`. -/
def CString.from_nonzero_vec (v : Bytes) : CString :=
  CString.from_vec_unchecked v

/-- `CString::into_boxed_c_str` (c_str.rs lines 731-733): the inner buffer,
reinterpreted as a boxed `CStr`. -/
def CString.into_boxed_c_str (c : CString) : CStrBytes :=
  c.inner

/-- `CStr::into_c_string` (c_str.rs lines 1378-1383): wrap the boxed bytes
back up as a `CString`. -/
def CStr.into_c_string (s : CStrBytes) : CString :=
  ⟨s⟩

/-- `Drop for CString` (c_str.rs lines 828-835): write `0` into the first
byte of the inner buffer; the resulting buffer contents just before release. -/
def CString.drop_wipe (c : CString) : Bytes :=
  c.inner.set 0 0

/-- Modelled from the spec: a UTF-8 continuation byte (`core::str` validation
is outside the excerpt; the spec requires "UTF-8 validation for text-returning
APIs (error carries the valid-up-to offset so partial recovery is possible)"). -/
def isCont (b : Nat) : Bool :=
  decide (0x80 ≤ b ∧ b ≤ 0xBF)

/-- Modelled from the spec: admissible second byte of a three-byte UTF-8
sequence headed by `b1`. -/
def utf8Mid3 (b1 b2 : Nat) : Bool :=
  if b1 = 0xE0 then decide (0xA0 ≤ b2 ∧ b2 ≤ 0xBF)
  else if b1 = 0xED then decide (0x80 ≤ b2 ∧ b2 ≤ 0x9F)
  else isCont b2

/-- Modelled from the spec: admissible second byte of a four-byte UTF-8
sequence headed by `b1`. -/
def utf8Mid4 (b1 b2 : Nat) : Bool :=
  if b1 = 0xF0 then decide (0x90 ≤ b2 ∧ b2 ≤ 0xBF)
  else if b1 = 0xF4 then decide (0x80 ≤ b2 ∧ b2 ≤ 0x8F)
  else isCont b2

/-- Modelled from the spec: byte length of the single well-formed UTF-8
scalar encoding at the head of the list, if there is one. -/
def utf8CharLen : Bytes → Option Nat
  | [] => none
  | b1 :: rest =>
    if b1 ≤ 0x7F then some 1
    else if 0xC2 ≤ b1 ∧ b1 ≤ 0xDF then
      match rest with
      | b2 :: _ => if isCont b2 then some 2 else none
      | [] => none
    else if 0xE0 ≤ b1 ∧ b1 ≤ 0xEF then
      match rest with
      | b2 :: b3 :: _ => if utf8Mid3 b1 b2 ∧ isCont b3 then some 3 else none
      | _ => none
    else if 0xF0 ≤ b1 ∧ b1 ≤ 0xF4 then
      match rest with
      | b2 :: b3 :: b4 :: _ => if utf8Mid4 b1 b2 ∧ isCont b3 ∧ isCont b4 then some 4 else none
      | _ => none
    else none

/-- Fuelled runner for UTF-8 validation; the fuel only serves structural
recursion and any fuel at least the list length gives the same answer. -/
def uvFuel : Nat → Bytes → Nat
  | 0, _ => 0
  | fuel + 1, l =>
    match utf8CharLen l with
    | none => 0
    | some k => k + uvFuel fuel (l.drop k)

/-- Modelled from the spec: `Utf8Error::valid_up_to` of `str::from_utf8` on
the byte list — the length of the longest prefix made of whole well-formed
UTF-8 scalar encodings. -/
def utf8ValidUpTo (l : Bytes) : Nat :=
  uvFuel l.length l

/-- Modelled from the spec: a byte list is valid UTF-8 when validation covers
all of it. -/
def validUtf8 (l : Bytes) : Prop :=
  utf8ValidUpTo l = l.length

instance (l : Bytes) : Decidable (validUtf8 l) := by
  unfold validUtf8
  infer_instance

/-- `IntoStringError` (c_str.rs lines 392-396): the retained `CString` plus
the `Utf8Error`, the latter modelled by its `valid_up_to` offset. -/
structure IntoStringError where
  inner : CString
  error : Nat
deriving DecidableEq

/-- `IntoStringError::into_cstring` (c_str.rs lines 1066-1068). -/
def IntoStringError.into_cstring (e : IntoStringError) : CString := e.inner

/-- `IntoStringError::utf8_error` (c_str.rs lines 1071-1073), as its
`valid_up_to` offset. -/
def IntoStringError.utf8_error (e : IntoStringError) : Nat := e.error

/-- `CString::into_string` (c_str.rs lines 618-623): run
`String::from_utf8` on `into_bytes`; on failure rebuild the `CString` from
the error's bytes with `from_vec_unchecked` and keep the `Utf8Error`.  A
returned `String` is modelled by its UTF-8 bytes. -/
def CString.into_string (c : CString) : Except IntoStringError Bytes :=
  let b := c.into_bytes
  if validUtf8 b then .ok b
  else .error ⟨CString.from_vec_unchecked b, utf8ValidUpTo b⟩

end SgxCStr

namespace SgxEnv

open SgxCStr (Bytes validUtf8)

/-- Result of a Rust computation that may panic. -/
inductive Outcome (α : Type) where
  | panics
  | ok (a : α)
deriving DecidableEq

/-- The host environment visible across the boundary: ordered key/value byte
pairs. -/
abbrev EnvMap := List (Bytes × Bytes)

/-- Modelled from the spec: `os_imp::getenv` is outside the excerpt; the spec
says `env::var_os` "rejects `key` containing an embedded zero byte locally
(never crosses the boundary) with a descriptive failure kind, then issues a
single boundary call, and surfaces `NotPresent` if the host reports no such
key, else a byte-string value".  The error payload is the descriptive
message. -/
def getenv (env : EnvMap) (key : Bytes) : Except String (Option Bytes) :=
  if 0 ∈ key then .error "nul byte found in provided data"
  else .ok (env.lookup key)

/-- `_var_os` (env.rs lines 251-254): `os_imp::getenv(key)` with any error
turned into a panic by `unwrap_or_else(|e| panic!(..))`. -/
def _var_os (env : EnvMap) (key : Bytes) : Outcome (Option Bytes) :=
  match getenv env key with
  | .ok o => .ok o
  | .error _ => .panics

/-- `VarError` (env.rs lines 260-270). -/
inductive VarError where
  | notPresent
  | notUnicode (s : Bytes)
deriving DecidableEq

/-- Modelled from the spec: `OsString::into_string` is outside the excerpt;
per the spec it "maps invalid UTF-8 to `NotUnicode(original_os_string)`,
preserving the raw bytes in the error so no information is lost"; on success
the `String` carries the same bytes. -/
def osstring_into_string (s : Bytes) : Except Bytes Bytes :=
  if validUtf8 s then .ok s else .error s

/-- `_var` (env.rs lines 212-217): wrap `var_os`; a present value goes
through `into_string` with failures mapped to `VarError::NotUnicode`, absence
becomes `VarError::NotPresent`.  A panic from `var_os` propagates. -/
def _var (env : EnvMap) (key : Bytes) : Outcome (Except VarError Bytes) :=
  match _var_os env key with
  | .panics => .panics
  | .ok (some s) =>
    match osstring_into_string s with
    | .ok str => .ok (.ok str)
    | .error os => .ok (.error (.notUnicode os))
  | .ok none => .ok (.error .notPresent)

/-- `Iterator for Vars::next` (env.rs lines 153-161) run to exhaustion over
the `vars_os` snapshot: each pair's key and value go through
`into_string().unwrap()`, so the first non-Unicode key or value panics;
otherwise the converted pairs are yielded in snapshot order. -/
def vars_collect : List (Bytes × Bytes) → Outcome (List (Bytes × Bytes))
  | [] => .ok []
  | (k, v) :: rest =>
    match osstring_into_string k with
    | .error _ => .panics
    | .ok ks =>
      match osstring_into_string v with
      | .error _ => .panics
      | .ok vs =>
        match vars_collect rest with
        | .panics => .panics
        | .ok tail => .ok ((ks, vs) :: tail)

end SgxEnv

namespace SgxNet

/-- `io::ErrorKind`, restricted to what `each_addr` mentions. -/
inductive ErrorKind where
  | invalidInput
  | other (code : Nat)
deriving DecidableEq

/-- `io::Error`, modelled by its kind and constant message. -/
structure IoError where
  kind : ErrorKind
  msg : String
deriving DecidableEq

/-- The error `each_addr` builds when resolution yields no candidate
(net/mod.rs lines 98-100). -/
def noAddrError : IoError :=
  ⟨.invalidInput, "could not resolve to any addresses"⟩

/-- The loop of `each_addr` (net/mod.rs lines 91-100): try `f` on each
candidate, return the first success, remember the last error; when the list
is exhausted return the remembered error, or the generic resolution error if
none was remembered. -/
def each_addr_loop {A T : Type} (f : Except IoError A → Except IoError T) :
    List A → Option IoError → Except IoError T
  | [], last_err => .error (last_err.getD noAddrError)
  | a :: rest, _ =>
    match f (.ok a) with
    | .ok l => .ok l
    | .error e => each_addr_loop f rest (some e)

/-- `each_addr` (net/mod.rs lines 83-101): on resolution failure hand the
error to `f`; otherwise run the candidate loop starting with no remembered
error. -/
def each_addr {A T : Type} (resolved : Except IoError (List A))
    (f : Except IoError A → Except IoError T) : Except IoError T :=
  match resolved with
  | .error e => f (.error e)
  | .ok addrs => each_addr_loop f addrs none

end SgxNet

namespace SgxCStr

/-! ### Helper lemmas about `memchr` -/

theorem memchr_eq_none_iff (x : Nat) (l : Bytes) : memchr x l = none ↔ x ∉ l := by
  induction l with
  | nil => simp [memchr]
  | cons b rest ih =>
    by_cases hb : b = x
    · subst hb
      simp [memchr]
    · simp [memchr, hb, Option.map_eq_none', ih, Ne.symm hb]

theorem memchr_some (x : Nat) (l : Bytes) (i : Nat) (h : memchr x l = some i) :
    l[i]? = some x ∧ ∀ j, j < i → l[j]? ≠ some x := by
  induction l generalizing i with
  | nil => simp [memchr] at h
  | cons b rest ih =>
    by_cases hb : b = x
    · subst hb
      simp [memchr] at h
      subst h
      exact ⟨by simp, fun j hj => absurd hj (Nat.not_lt_zero j)⟩
    · simp [memchr, hb] at h
      obtain ⟨a, ha, hai⟩ := h
      obtain ⟨h1, h2⟩ := ih a ha
      subst hai
      refine ⟨by simpa using h1, fun j hj => ?_⟩
      cases j with
      | zero => simpa using hb
      | succ j => simpa using h2 j (Nat.lt_of_succ_lt_succ hj)

theorem memchr_of_first (x : Nat) (l : Bytes) (i : Nat)
    (h1 : l[i]? = some x) (h2 : ∀ j, j < i → l[j]? ≠ some x) :
    memchr x l = some i := by
  induction l generalizing i with
  | nil => simp at h1
  | cons b rest ih =>
    cases i with
    | zero =>
      simp at h1
      subst h1
      simp [memchr]
    | succ i =>
      have hb : b ≠ x := by
        have := h2 0 (Nat.succ_pos i)
        simpa using this
      have hr := ih i (by simpa using h1)
        (fun j hj => by simpa using h2 (j + 1) (Nat.succ_lt_succ hj))
      simp [memchr, hb, hr]

/-- The branch condition of `from_vec_with_nul` is equivalent to the
structural statement: the last byte is zero and no earlier byte is. -/
theorem first_zero_at_last_iff (v : Bytes) :
    (∃ p, memchr 0 v = some p ∧ p + 1 = v.length) ↔
      (v.getLast? = some 0 ∧ 0 ∉ v.dropLast) := by
  constructor
  · rintro ⟨p, hp, hlen⟩
    obtain ⟨h1, h2⟩ := memchr_some 0 v p hp
    constructor
    · rw [List.getLast?_eq_getElem?]
      rwa [show v.length - 1 = p by omega]
    · intro hmem
      rw [List.dropLast_eq_take] at hmem
      obtain ⟨j, hj⟩ := List.mem_iff_getElem?.mp hmem
      rw [List.getElem?_take] at hj
      by_cases hjp : j < v.length - 1
      · rw [if_pos hjp] at hj
        exact h2 j (by omega) hj
      · rw [if_neg hjp] at hj
        exact Option.noConfusion hj
  · rintro ⟨h1, h2⟩
    have hne : v ≠ [] := by
      intro h
      subst h
      simp at h1
    have hlen : 0 < v.length := List.length_pos.mpr hne
    refine ⟨v.length - 1, ?_, by omega⟩
    apply memchr_of_first
    · rw [← List.getLast?_eq_getElem?]
      exact h1
    · intro j hj hget
      apply h2
      rw [List.dropLast_eq_take]
      rw [List.mem_iff_getElem?]
      exact ⟨j, by rw [List.getElem?_take, if_pos hj]; exact hget⟩

/-- Bridge to the claim's phrasing: "exactly one zero byte, at the last
index" is the same as "last byte zero, none earlier". -/
theorem count_one_last_iff (v : Bytes) :
    (v.count 0 = 1 ∧ v.getLast? = some 0) ↔
      (v.getLast? = some 0 ∧ 0 ∉ v.dropLast) := by
  constructor
  · rintro ⟨hc, hl⟩
    refine ⟨hl, ?_⟩
    have hv := List.dropLast_append_getLast? 0 hl
    intro hmem
    have : v.count 0 = v.dropLast.count 0 + 1 := by
      conv_lhs => rw [← hv]
      rw [List.count_append]
      simp
    have : 0 < v.dropLast.count 0 := List.count_pos_iff.mpr hmem
    omega
  · rintro ⟨hl, hd⟩
    refine ⟨?_, hl⟩
    have hv := List.dropLast_append_getLast? 0 hl
    conv_lhs => rw [← hv]
    rw [List.count_append]
    rw [List.count_eq_zero.mpr hd]
    simp

/-! ### Helper lemmas about the modelled UTF-8 validator -/

theorem utf8CharLen_bounds (l : Bytes) (k : Nat) (h : utf8CharLen l = some k) :
    1 ≤ k ∧ k ≤ l.length := by
  rcases l with _ | ⟨b1, _ | ⟨b2, _ | ⟨b3, _ | ⟨b4, rest⟩⟩⟩⟩ <;>
    simp only [utf8CharLen] at h <;>
    try split_ifs at h
  all_goals simp_all
  all_goals omega

theorem uvFuel_congr : ∀ (f f' : Nat) (l : Bytes), l.length ≤ f → l.length ≤ f' →
    uvFuel f l = uvFuel f' l := by
  intro f
  induction f with
  | zero =>
    intro f' l hf hf'
    have : l = [] := List.length_eq_zero.mp (Nat.le_zero.mp hf)
    subst this
    cases f' <;> simp [uvFuel, utf8CharLen]
  | succ f ih =>
    intro f' l hf hf'
    cases f' with
    | zero =>
      have : l = [] := List.length_eq_zero.mp (Nat.le_zero.mp hf')
      subst this
      simp [uvFuel, utf8CharLen]
    | succ f' =>
      cases hc : utf8CharLen l with
      | none => simp [uvFuel, hc]
      | some k =>
        obtain ⟨hk1, hk2⟩ := utf8CharLen_bounds l k hc
        have hd : (l.drop k).length = l.length - k := List.length_drop k l
        simp only [uvFuel, hc]
        rw [ih f' (l.drop k) (by omega) (by omega)]

theorem utf8ValidUpTo_eq_zero (l : Bytes) (h : utf8CharLen l = none) :
    utf8ValidUpTo l = 0 := by
  unfold utf8ValidUpTo
  cases l with
  | nil => rfl
  | cons b rest => simp [uvFuel, h]

theorem utf8ValidUpTo_eq_step (l : Bytes) (k : Nat) (h : utf8CharLen l = some k) :
    utf8ValidUpTo l = k + utf8ValidUpTo (l.drop k) := by
  obtain ⟨hk1, hk2⟩ := utf8CharLen_bounds l k h
  have hlen : 0 < l.length := by omega
  unfold utf8ValidUpTo
  obtain ⟨n, hn⟩ : ∃ n, l.length = n + 1 := ⟨l.length - 1, by omega⟩
  rw [hn]
  simp only [uvFuel, h]
  have hd : (l.drop k).length = l.length - k := List.length_drop k l
  rw [uvFuel_congr n (l.drop k).length (l.drop k) (by omega) (by omega)]

theorem utf8ValidUpTo_le_length (l : Bytes) : utf8ValidUpTo l ≤ l.length := by
  have H : ∀ (n : Nat) (l : Bytes), l.length ≤ n → utf8ValidUpTo l ≤ l.length := by
    intro n
    induction n with
    | zero =>
      intro l hl
      have : l = [] := List.length_eq_zero.mp (Nat.le_zero.mp hl)
      subst this
      simp [utf8ValidUpTo, uvFuel]
    | succ n ih =>
      intro l hl
      cases hc : utf8CharLen l with
      | none => rw [utf8ValidUpTo_eq_zero l hc]; exact Nat.zero_le _
      | some k =>
        obtain ⟨hk1, hk2⟩ := utf8CharLen_bounds l k hc
        rw [utf8ValidUpTo_eq_step l k hc]
        have hd : (l.drop k).length = l.length - k := List.length_drop k l
        have := ih (l.drop k) (by omega)
        omega
  exact H l.length l (Nat.le_refl _)

theorem utf8CharLen_take_append (l tail : Bytes) (k : Nat) (h : utf8CharLen l = some k) :
    utf8CharLen (l.take k ++ tail) = some k := by
  rcases l with _ | ⟨b1, _ | ⟨b2, _ | ⟨b3, _ | ⟨b4, rest⟩⟩⟩⟩ <;>
    simp only [utf8CharLen] at h <;>
    try split_ifs at h
  all_goals (try exact Option.noConfusion h)
  all_goals (injection h with hk; subst hk)
  all_goals simp_all [utf8CharLen, List.take]
  all_goals (split_ifs <;> simp_all <;> omega)

theorem utf8ValidUpTo_take (l : Bytes) :
    utf8ValidUpTo (l.take (utf8ValidUpTo l)) = utf8ValidUpTo l := by
  have H : ∀ (n : Nat) (l : Bytes), l.length ≤ n →
      utf8ValidUpTo (l.take (utf8ValidUpTo l)) = utf8ValidUpTo l := by
    intro n
    induction n with
    | zero =>
      intro l hl
      have : l = [] := List.length_eq_zero.mp (Nat.le_zero.mp hl)
      subst this
      rfl
    | succ n ih =>
      intro l hl
      cases hc : utf8CharLen l with
      | none =>
        rw [utf8ValidUpTo_eq_zero l hc]
        simp [utf8ValidUpTo, uvFuel]
      | some k =>
        obtain ⟨hk1, hk2⟩ := utf8CharLen_bounds l k hc
        rw [utf8ValidUpTo_eq_step l k hc]
        have htk : (l.take k).length = k := by
          rw [List.length_take]
          omega
        rw [List.take_add]
        have hstep := utf8CharLen_take_append l ((l.drop k).take (utf8ValidUpTo (l.drop k))) k hc
        rw [utf8ValidUpTo_eq_step _ k hstep]
        congr 1
        have hdl : (l.take k ++ (l.drop k).take (utf8ValidUpTo (l.drop k))).drop k
            = (l.drop k).take (utf8ValidUpTo (l.drop k)) := by
          rw [List.drop_left' htk]
        rw [hdl]
        exact ih (l.drop k) (by have := List.length_drop k l; omega)
  exact H l.length l (Nat.le_refl _)

theorem validUtf8_take_validUpTo (l : Bytes) :
    validUtf8 (l.take (utf8ValidUpTo l)) := by
  unfold validUtf8
  rw [utf8ValidUpTo_take]
  rw [List.length_take]
  have := utf8ValidUpTo_le_length l
  omega

/-! ### Shared lemmas about the `CString` constructors -/

theorem _new_ok_iff (b : Bytes) (c : CString) :
    CString._new b = .ok c ↔ memchr 0 b = none ∧ c = CString.from_vec_unchecked b := by
  unfold CString._new
  cases hm : memchr 0 b <;> simp [eq_comm]

theorem wf_from_vec_unchecked (v : Bytes) (h : 0 ∉ v) :
    CStringWF (CString.from_vec_unchecked v) := by
  constructor
  · show (v ++ [0]).getLast? = some 0
    exact List.getLast?_concat v
  · show 0 ∉ (v ++ [0]).dropLast
    rw [List.dropLast_concat]
    exact h

theorem from_vec_with_nul_ok_iff (v : Bytes) (c : CString) :
    CString.from_vec_with_nul v = .ok c ↔
      ((∃ p, memchr 0 v = some p ∧ p + 1 = v.length) ∧ c = ⟨v⟩) := by
  unfold CString.from_vec_with_nul CString.from_vec_with_nul_unchecked
  cases hm : memchr 0 v with
  | none => simp
  | some p =>
    by_cases hp : p + 1 = v.length
    · simp [hp, eq_comm]
    · simp [hp]

theorem from_vec_with_nul_ok_exists_iff (v : Bytes) :
    (∃ c : CString, CString.from_vec_with_nul v = .ok c) ↔
      (∃ p, memchr 0 v = some p ∧ p + 1 = v.length) := by
  unfold CString.from_vec_with_nul
  cases hm : memchr 0 v with
  | none => simp
  | some p =>
    by_cases hp : p + 1 = v.length
    · simp [hp]
    · simp [hp]

theorem cstr_from_bytes_with_nul_ok_exists_iff (v : Bytes) :
    (∃ s : CStrBytes, CStr.from_bytes_with_nul v = .ok s) ↔
      (∃ p, memchr 0 v = some p ∧ p + 1 = v.length) := by
  unfold CStr.from_bytes_with_nul
  cases hm : memchr 0 v with
  | none => simp
  | some p =>
    by_cases hp : p + 1 = v.length
    · simp [hp]
    · simp [hp]

theorem memchr_interior (v : Bytes) (j : Nat) (hj : j + 1 < v.length) (hz : v[j]? = some 0) :
    ∃ pos, memchr 0 v = some pos ∧ pos + 1 < v.length ∧ v[pos]? = some 0 := by
  cases hm : memchr 0 v with
  | none =>
    have : (0 : Nat) ∉ v := (memchr_eq_none_iff 0 v).mp hm
    have : (0 : Nat) ∈ v := List.mem_iff_getElem?.mpr ⟨j, hz⟩
    simp_all
  | some p =>
    obtain ⟨h1, h2⟩ := memchr_some 0 v p hm
    refine ⟨p, rfl, ?_, h1⟩
    by_contra hcon
    exact h2 j (by omega) hz

end SgxCStr

/-! ## The claims -/

namespace SgxCStr

/-- Claim C1: for every byte vector `b` with no zero byte, `CString::new`
(through `CString::_new`) succeeds, the result's `as_bytes` is exactly `b`,
and its `as_bytes_with_nul` is `b` followed by a single zero byte. -/
theorem C1_new_roundtrip (b : Bytes) (h : 0 ∉ b) :
    ∃ c : CString, CString._new b = .ok c ∧
      c.as_bytes = b ∧ c.as_bytes_with_nul = b ++ [0] := by
  refine ⟨CString.from_vec_unchecked b, ?_, ?_, rfl⟩
  · exact (_new_ok_iff b _).mpr ⟨(memchr_eq_none_iff 0 b).mpr h, rfl⟩
  · show (b ++ [0]).take ((b ++ [0]).length - 1) = b
    simp

/-- Witness for C1 at the concrete zero-free vector `[104, 105]`. -/
theorem C1_witness : 0 ∉ ([104, 105] : Bytes) ∧
    ∃ c : CString, CString._new [104, 105] = .ok c ∧
      c.as_bytes = [104, 105] ∧ c.as_bytes_with_nul = [104, 105] ++ [0] :=
  ⟨by decide, C1_new_roundtrip [104, 105] (by decide)⟩

/-- Claim C3 is false as stated: `[0, 1, 0]` contains a zero byte at
position 2, yet `CString::new` reports nul position 0 (the first zero), not
2. -/
theorem C3_counterexample :
    ([0, 1, 0] : Bytes)[2]? = some 0 ∧
      CString._new [0, 1, 0] = .error ⟨0, [0, 1, 0]⟩ ∧
      NulError.nul_position ⟨0, [0, 1, 0]⟩ ≠ 2 :=
  ⟨by decide, rfl, by decide⟩

/-- Claim C3 (amended): for every byte sequence whose first zero byte sits at
position `i`, `CString::new` fails with a `NulError` whose `nul_position` is
`i` and whose `into_vec` returns the full original bytes unchanged. -/
theorem C3_new_fails_at_first_nul (b : Bytes) (i : Nat)
    (h1 : b[i]? = some 0) (h2 : ∀ j, j < i → b[j]? ≠ some 0) :
    ∃ e : NulError, CString._new b = .error e ∧
      e.nul_position = i ∧ e.into_vec = b := by
  have hm := memchr_of_first 0 b i h1 h2
  refine ⟨⟨i, b⟩, ?_, rfl, rfl⟩
  unfold CString._new
  rw [hm]

/-- Witness for the amended C3 at `[102, 0, 111]`, first zero at index 1. -/
theorem C3_witness : (([102, 0, 111] : Bytes)[1]? = some 0) ∧
    ∃ e : NulError, CString._new [102, 0, 111] = .error e ∧
      e.nul_position = 1 ∧ e.into_vec = [102, 0, 111] :=
  ⟨by decide, C3_new_fails_at_first_nul [102, 0, 111] 1 (by decide)
    (by
      intro j hj
      have : j = 0 := by omega
      subst this
      decide)⟩

/-- Claim C7: every `CString` produced by a safe operation — `CString::new`,
`from_vec_with_nul`, `Default`, `From<Vec<NonZeroU8>>`, `CStr::to_owned`,
and `into_boxed_c_str` followed by `into_c_string` — has an inner buffer of
length at least 1 whose last byte is zero and with no zero byte earlier. -/
theorem C7_invariant_all_safe_ops :
    (∀ (b : Bytes) (c : CString), CString._new b = .ok c → CStringWF c)
    ∧ (∀ (v : Bytes) (c : CString), CString.from_vec_with_nul v = .ok c → CStringWF c)
    ∧ CStringWF CString.default_value
    ∧ (∀ v : Bytes, 0 ∉ v → CStringWF (CString.from_nonzero_vec v))
    ∧ (∀ s : CStrBytes, CStrWF s → CStringWF (CStr.to_owned s))
    ∧ (∀ c : CString, CStringWF c →
        CStringWF (CStr.into_c_string (CString.into_boxed_c_str c))) := by
  refine ⟨?_, ?_, by decide, ?_, ?_, ?_⟩
  · intro b c h
    obtain ⟨hm, hc⟩ := (_new_ok_iff b c).mp h
    subst hc
    exact wf_from_vec_unchecked b ((memchr_eq_none_iff 0 b).mp hm)
  · intro v c h
    have hex : ∃ p, memchr 0 v = some p ∧ p + 1 = v.length :=
      (from_vec_with_nul_ok_exists_iff v).mp ⟨c, h⟩
    obtain ⟨hl, hd⟩ := (first_zero_at_last_iff v).mp hex
    have hc : c = ⟨v⟩ := ((from_vec_with_nul_ok_iff v c).mp h).2
    subst hc
    exact ⟨hl, hd⟩
  · intro v hv
    exact wf_from_vec_unchecked v hv
  · intro s hs
    exact hs
  · intro c hc
    exact hc

/-- Witness for C7: the invariant holds for `CString::new([1])`s result and
for the nonzero-byte conversion of `[5]`. -/
theorem C7_witness : CStringWF ⟨[1, 0]⟩ ∧ CStringWF (CString.from_nonzero_vec [5]) :=
  ⟨C7_invariant_all_safe_ops.1 [1] ⟨[1, 0]⟩ rfl,
   C7_invariant_all_safe_ops.2.2.2.1 [5] (by decide)⟩

/-- Claim C8: dropping a `CString` writes a zero into the first byte of its
inner buffer and changes nothing else — the length and every byte after the
first are unchanged. -/
theorem C8_drop_wipes_first_byte_only (c : CString) (h : CStringWF c) :
    (CString.drop_wipe c)[0]? = some 0
    ∧ (CString.drop_wipe c).length = c.inner.length
    ∧ ∀ i : Nat, i ≠ 0 → (CString.drop_wipe c)[i]? = c.inner[i]? := by
  obtain ⟨h1, _⟩ := h
  obtain ⟨b, rest, hbr⟩ : ∃ b rest, c.inner = b :: rest := by
    cases hcc : c.inner with
    | nil => rw [hcc] at h1; exact Option.noConfusion h1
    | cons b rest => exact ⟨b, rest, rfl⟩
  unfold CString.drop_wipe
  rw [hbr]
  refine ⟨?_, ?_, ?_⟩
  · rw [List.set_cons_zero]
    simp
  · rw [List.set_cons_zero]
    simp
  · intro i hi
    cases i with
    | zero => exact absurd rfl hi
    | succ j =>
      rw [List.set_cons_zero]
      simp

/-- Witness for C8 on the concrete buffer `[1, 0]`. -/
theorem C8_witness :
    (CString.drop_wipe ⟨[1, 0]⟩)[0]? = some 0
    ∧ (CString.drop_wipe ⟨[1, 0]⟩).length = (CString.mk [1, 0]).inner.length
    ∧ ∀ i : Nat, i ≠ 0 →
        (CString.drop_wipe ⟨[1, 0]⟩)[i]? = (CString.mk [1, 0]).inner[i]? :=
  C8_drop_wipes_first_byte_only ⟨[1, 0]⟩ (by decide)

/-- The interior-nul error branch of `from_vec_with_nul`. -/
theorem from_vec_with_nul_interior (v : Bytes) (p : Nat) (hm : memchr 0 v = some p)
    (hne : p + 1 ≠ v.length) :
    CString.from_vec_with_nul v = .error ⟨.interiorNul p, v⟩ := by
  unfold CString.from_vec_with_nul
  rw [hm]
  simp [hne]

/-- The not-nul-terminated error branch of `from_vec_with_nul`. -/
theorem from_vec_with_nul_no_nul (v : Bytes) (h : 0 ∉ v) :
    CString.from_vec_with_nul v = .error ⟨.notNulTerminated, v⟩ := by
  unfold CString.from_vec_with_nul
  rw [(memchr_eq_none_iff 0 v).mpr h]

/-- The interior-nul error branch of `CStr::from_bytes_with_nul`. -/
theorem cstr_from_bytes_with_nul_interior (v : Bytes) (p : Nat)
    (hm : memchr 0 v = some p) (hne : p + 1 ≠ v.length) :
    CStr.from_bytes_with_nul v = .error ⟨.interiorNul p⟩ := by
  unfold CStr.from_bytes_with_nul
  rw [hm]
  simp [hne]

/-- The not-nul-terminated error branch of `CStr::from_bytes_with_nul`. -/
theorem cstr_from_bytes_with_nul_no_nul (v : Bytes) (h : 0 ∉ v) :
    CStr.from_bytes_with_nul v = .error ⟨.notNulTerminated⟩ := by
  unfold CStr.from_bytes_with_nul
  rw [(memchr_eq_none_iff 0 v).mpr h]

/-- Claim C2: `from_vec_with_nul(v)` succeeds exactly when `v` has one zero
byte sitting at its last index; a zero byte before the last index yields
`InteriorNul(pos)` with `pos` such a position, and absence of any zero byte
yields `NotNulTerminated`; `CStr::from_bytes_with_nul` satisfies the same
success and failure conditions. -/
theorem C2_with_nul_characterization (v : Bytes) :
    ((∃ c : CString, CString.from_vec_with_nul v = .ok c) ↔
        v.count 0 = 1 ∧ v.getLast? = some 0)
    ∧ (∀ j : Nat, j + 1 < v.length → v[j]? = some 0 →
        ∃ pos : Nat, CString.from_vec_with_nul v = .error ⟨.interiorNul pos, v⟩ ∧
          pos + 1 < v.length ∧ v[pos]? = some 0)
    ∧ (0 ∉ v → CString.from_vec_with_nul v = .error ⟨.notNulTerminated, v⟩)
    ∧ ((∃ s : CStrBytes, CStr.from_bytes_with_nul v = .ok s) ↔
        v.count 0 = 1 ∧ v.getLast? = some 0)
    ∧ (∀ j : Nat, j + 1 < v.length → v[j]? = some 0 →
        ∃ pos : Nat, CStr.from_bytes_with_nul v = .error ⟨.interiorNul pos⟩ ∧
          pos + 1 < v.length ∧ v[pos]? = some 0)
    ∧ (0 ∉ v → CStr.from_bytes_with_nul v = .error ⟨.notNulTerminated⟩) := by
  refine ⟨?_, ?_, ?_, ?_, ?_, ?_⟩
  · exact (from_vec_with_nul_ok_exists_iff v).trans
      ((first_zero_at_last_iff v).trans (count_one_last_iff v).symm)
  · intro j hj hz
    obtain ⟨pos, hm, hlt, hzp⟩ := memchr_interior v j hj hz
    exact ⟨pos, from_vec_with_nul_interior v pos hm (by omega), hlt, hzp⟩
  · exact from_vec_with_nul_no_nul v
  · exact (cstr_from_bytes_with_nul_ok_exists_iff v).trans
      ((first_zero_at_last_iff v).trans (count_one_last_iff v).symm)
  · intro j hj hz
    obtain ⟨pos, hm, hlt, hzp⟩ := memchr_interior v j hj hz
    exact ⟨pos, cstr_from_bytes_with_nul_interior v pos hm (by omega), hlt, hzp⟩
  · exact cstr_from_bytes_with_nul_no_nul v

/-- Witness for C2: the interior-nul case at `[1, 0, 2, 0]` and the success
case at `[7, 0]`. -/
theorem C2_witness :
    (∃ pos : Nat, CString.from_vec_with_nul [1, 0, 2, 0] =
        .error ⟨.interiorNul pos, [1, 0, 2, 0]⟩ ∧
      pos + 1 < ([1, 0, 2, 0] : Bytes).length ∧ ([1, 0, 2, 0] : Bytes)[pos]? = some 0)
    ∧ ∃ c : CString, CString.from_vec_with_nul [7, 0] = .ok c :=
  ⟨(C2_with_nul_characterization [1, 0, 2, 0]).2.1 1 (by decide) (by decide),
   (C2_with_nul_characterization [7, 0]).1.mpr (by decide)⟩

/-- Claim C9: when a `CString`s bytes are not valid UTF-8, `into_string`
fails with an `IntoStringError` that retains the original string — its
`into_cstring` is the very same `CString`, terminator included — and whose
`utf8_error` carries the valid-up-to offset: the bytes up to that offset are
valid UTF-8 and the offset lies strictly inside the byte sequence. -/
theorem C9_into_string_error_retains (c : CString) (hwf : CStringWF c)
    (hinv : ¬ validUtf8 (CString.into_bytes c)) :
    ∃ e : IntoStringError, CString.into_string c = .error e
      ∧ e.into_cstring = c
      ∧ (e.into_cstring).as_bytes_with_nul = c.as_bytes_with_nul
      ∧ e.utf8_error = utf8ValidUpTo (CString.into_bytes c)
      ∧ validUtf8 ((CString.into_bytes c).take e.utf8_error)
      ∧ e.utf8_error < (CString.into_bytes c).length := by
  have hinner : c.inner.dropLast ++ [0] = c.inner :=
    List.dropLast_append_getLast? 0 hwf.1
  have hec : CString.from_vec_unchecked (CString.into_bytes c) = c := by
    unfold CString.from_vec_unchecked CString.into_bytes
    cases c with
    | mk inner => exact congrArg CString.mk hinner
  refine ⟨⟨CString.from_vec_unchecked (CString.into_bytes c),
      utf8ValidUpTo (CString.into_bytes c)⟩, ?_, hec, ?_, rfl, ?_, ?_⟩
  · unfold CString.into_string
    rw [if_neg hinv]
  · show (CString.from_vec_unchecked (CString.into_bytes c)).as_bytes_with_nul
      = c.as_bytes_with_nul
    rw [hec]
  · exact validUtf8_take_validUpTo _
  · show utf8ValidUpTo (CString.into_bytes c) < (CString.into_bytes c).length
    have hle := utf8ValidUpTo_le_length (CString.into_bytes c)
    have hne : utf8ValidUpTo (CString.into_bytes c) ≠ (CString.into_bytes c).length := hinv
    omega

/-- Witness for C9 on the invalid-UTF-8 buffer `[102, 255, 0]`. -/
theorem C9_witness :
    ∃ e : IntoStringError, CString.into_string ⟨[102, 255, 0]⟩ = .error e
      ∧ e.into_cstring = ⟨[102, 255, 0]⟩
      ∧ (e.into_cstring).as_bytes_with_nul = (CString.mk [102, 255, 0]).as_bytes_with_nul
      ∧ e.utf8_error = utf8ValidUpTo (CString.into_bytes ⟨[102, 255, 0]⟩)
      ∧ validUtf8 ((CString.into_bytes ⟨[102, 255, 0]⟩).take e.utf8_error)
      ∧ e.utf8_error < (CString.into_bytes ⟨[102, 255, 0]⟩).length :=
  C9_into_string_error_retains ⟨[102, 255, 0]⟩ (by decide) (by decide)

end SgxCStr

namespace SgxNet

/-- One failing step of the `each_addr` loop. -/
theorem each_addr_loop_cons_error {A T : Type}
    (f : Except IoError A → Except IoError T) (x : A) (rest : List A)
    (acc : Option IoError) (e : IoError) (he : f (.ok x) = .error e) :
    each_addr_loop f (x :: rest) acc = each_addr_loop f rest (some e) := by
  simp [each_addr_loop, he]

/-- One succeeding step of the `each_addr` loop. -/
theorem each_addr_loop_cons_ok {A T : Type}
    (f : Except IoError A → Except IoError T) (x : A) (rest : List A)
    (acc : Option IoError) (t : T) (ht : f (.ok x) = .ok t) :
    each_addr_loop f (x :: rest) acc = .ok t := by
  simp [each_addr_loop, ht]

/-- The loop of `each_addr` returns the first success and skips nothing:
when every address before `a` fails and `a` succeeds with `t`, the loop
yields `t` whatever error is remembered. -/
theorem each_addr_loop_first_success {A T : Type}
    (f : Except IoError A → Except IoError T) :
    ∀ (pre : List A) (a : A) (post : List A) (acc : Option IoError) (t : T),
      (∀ x ∈ pre, ∃ e, f (.ok x) = .error e) → f (.ok a) = .ok t →
      each_addr_loop f (pre ++ a :: post) acc = .ok t := by
  intro pre
  induction pre with
  | nil =>
    intro a post acc t _ hf
    exact each_addr_loop_cons_ok f a post acc t hf
  | cons x pre ih =>
    intro a post acc t hpre hf
    obtain ⟨e, he⟩ := hpre x (List.mem_cons_self x pre)
    rw [List.cons_append, each_addr_loop_cons_error f x (pre ++ a :: post) acc e he]
    exact ih a post (some e) t (fun y hy => hpre y (List.mem_cons_of_mem x hy)) hf

/-- When every address fails, the loop returns the result of `f` on the last
address (which is that address's error). -/
theorem each_addr_loop_all_fail {A T : Type}
    (f : Except IoError A → Except IoError T) :
    ∀ (addrs : List A) (acc : Option IoError) (hne : addrs ≠ []),
      (∀ x ∈ addrs, ∃ e, f (.ok x) = .error e) →
      each_addr_loop f addrs acc = f (.ok (addrs.getLast hne)) := by
  intro addrs
  induction addrs with
  | nil =>
    intro acc hne
    exact absurd rfl hne
  | cons x rest ih =>
    intro acc hne hfail
    obtain ⟨e, he⟩ := hfail x (List.mem_cons_self x rest)
    cases rest with
    | nil =>
      rw [each_addr_loop_cons_error f x [] acc e he]
      show Except.error ((some e).getD noAddrError) = f (.ok x)
      rw [he]
      rfl
    | cons y rest =>
      rw [each_addr_loop_cons_error f x (y :: rest) acc e he]
      rw [ih (some e) (List.cons_ne_nil y rest)
        (fun z hz => hfail z (List.mem_cons_of_mem x hz))]
      congr 1

/-- Claim C4: `each_addr` attempts the wrapped operation on the resolved
candidates in order and returns the result of the first candidate that
succeeds; if every candidate fails it returns the error of the last
candidate attempted; and if resolution produced zero candidates it returns
the generic invalid-input "could not resolve to any addresses" error. -/
theorem C4_each_addr_policy :
    (∀ (A T : Type) (pre : List A) (a : A) (post : List A)
        (f : Except IoError A → Except IoError T) (t : T),
        (∀ x ∈ pre, ∃ e, f (.ok x) = .error e) → f (.ok a) = .ok t →
        each_addr (.ok (pre ++ a :: post)) f = .ok t)
    ∧ (∀ (A T : Type) (addrs : List A)
        (f : Except IoError A → Except IoError T) (hne : addrs ≠ []),
        (∀ x ∈ addrs, ∃ e, f (.ok x) = .error e) →
        each_addr (.ok addrs) f = f (.ok (addrs.getLast hne)))
    ∧ (∀ (A T : Type) (f : Except IoError A → Except IoError T),
        each_addr (.ok ([] : List A)) f = .error noAddrError) := by
  refine ⟨?_, ?_, ?_⟩
  · intro A T pre a post f t hpre hf
    exact each_addr_loop_first_success f pre a post none t hpre hf
  · intro A T addrs f hne hfail
    exact each_addr_loop_all_fail f addrs none hne hfail
  · intro A T f
    rfl

/-- A concrete operation for exercising `each_addr`: succeeds only on the
address `1`. -/
def probeF : Except IoError Nat → Except IoError Nat := fun r =>
  match r with
  | .ok 1 => .ok 42
  | _ => .error ⟨.other 0, "probe failure"⟩

/-- Witness for C4: over `[0, 1, 2]` only address `1` succeeds and its
result is returned; over `[0, 3]` both fail and the last error is returned;
an empty candidate list gives the generic error. -/
theorem C4_witness :
    each_addr (.ok [0, 1, 2]) probeF = .ok 42
    ∧ each_addr (.ok [0, 3]) probeF = probeF (.ok 3)
    ∧ each_addr (.ok ([] : List Nat)) probeF = .error noAddrError :=
  ⟨C4_each_addr_policy.1 Nat Nat [0] 1 [2] probeF 42
      (by
        intro x hx
        have hx0 : x = 0 := by simpa using hx
        subst hx0
        exact ⟨⟨.other 0, "probe failure"⟩, rfl⟩)
      rfl,
   C4_each_addr_policy.2.1 Nat Nat [0, 3] probeF (by simp)
      (by
        intro x hx
        have : x = 0 ∨ x = 3 := by simpa using hx
        rcases this with h | h <;> subst h <;>
          exact ⟨⟨.other 0, "probe failure"⟩, rfl⟩),
   C4_each_addr_policy.2.2 Nat Nat probeF⟩

end SgxNet

namespace SgxEnv

open SgxCStr (Bytes validUtf8)

/-- `osstring_into_string` on valid UTF-8 returns the same bytes. -/
theorem osstring_into_string_ok (s : Bytes) (h : validUtf8 s) :
    osstring_into_string s = .ok s := by
  unfold osstring_into_string
  rw [if_pos h]

/-- `osstring_into_string` on invalid UTF-8 returns the bytes as the error. -/
theorem osstring_into_string_err (s : Bytes) (h : ¬ validUtf8 s) :
    osstring_into_string s = .error s := by
  unfold osstring_into_string
  rw [if_neg h]

/-- `_var` propagates a `_var_os` panic. -/
theorem _var_of_panics (env : EnvMap) (key : Bytes) (h : _var_os env key = .panics) :
    _var env key = .panics := by
  unfold _var
  rw [h]

/-- `_var` maps an absent variable to `NotPresent`. -/
theorem _var_of_none (env : EnvMap) (key : Bytes) (h : _var_os env key = .ok none) :
    _var env key = .ok (.error .notPresent) := by
  unfold _var
  rw [h]

/-- `_var` runs a present value through `into_string`. -/
theorem _var_of_some (env : EnvMap) (key : Bytes) (s : Bytes)
    (h : _var_os env key = .ok (some s)) :
    _var env key = (match osstring_into_string s with
      | .ok str => .ok (.ok str)
      | .error os => .ok (.error (.notUnicode os))) := by
  unfold _var
  rw [h]

/-- Claim C5 (code bug evaluation): `_var_os` panics on a key containing an
embedded zero byte — `getenv` rejects it locally without consulting the host
environment, and `unwrap_or_else(panic!)` in `_var_os` (env.rs lines
251-254) turns that rejection into a panic instead of a returned failure;
a key absent from the host environment does surface as `None`. -/
theorem C5_var_os_nul_key_panics :
    _var_os [] [97, 0, 98] = Outcome.panics
    ∧ _var_os [([97, 0, 98], [1])] [97, 0, 98] = Outcome.panics
    ∧ (∀ env1 env2 : EnvMap, _var_os env1 [97, 0, 98] = _var_os env2 [97, 0, 98])
    ∧ _var_os [] [104, 111, 109, 101] = Outcome.ok none := by
  refine ⟨rfl, rfl, ?_, rfl⟩
  intro env1 env2
  have h : ∀ env : EnvMap, _var_os env [97, 0, 98] = Outcome.panics := by
    intro env
    unfold _var_os getenv
    rw [if_pos (by decide : (0 : Nat) ∈ ([97, 0, 98] : Bytes))]
  rw [h env1, h env2]

/-- Claim C6: `var` wraps `var_os`: it returns `NotPresent` exactly when
`var_os` returns no value; a present value that is not valid UTF-8 becomes
`NotUnicode` carrying the original byte string unchanged; and a present
valid-Unicode value is returned as the string itself. -/
theorem C6_var_wraps_var_os (env : EnvMap) (key : Bytes) :
    (_var env key = .ok (.error .notPresent) ↔ _var_os env key = .ok none)
    ∧ (∀ s : Bytes, _var_os env key = .ok (some s) → validUtf8 s →
        _var env key = .ok (.ok s))
    ∧ (∀ s : Bytes, _var_os env key = .ok (some s) → ¬ validUtf8 s →
        _var env key = .ok (.error (.notUnicode s))) := by
  refine ⟨?_, ?_, ?_⟩
  · cases ho : _var_os env key with
    | panics =>
      rw [_var_of_panics env key ho]
      simp
    | ok o =>
      cases o with
      | none =>
        rw [_var_of_none env key ho]
        simp
      | some s =>
        rw [_var_of_some env key s ho]
        by_cases hs : validUtf8 s
        · rw [osstring_into_string_ok s hs]
          simp
        · rw [osstring_into_string_err s hs]
          simp
  · intro s hs hv
    rw [_var_of_some env key s hs, osstring_into_string_ok s hv]
  · intro s hs hv
    rw [_var_of_some env key s hs, osstring_into_string_err s hv]

/-- Witness for C6: a present ASCII value comes back as a string, a present
non-UTF-8 value comes back inside `NotUnicode`, and an absent key maps to
`NotPresent`. -/
theorem C6_witness :
    _var [([65], [66])] [65] = .ok (.ok [66])
    ∧ _var [([65], [255])] [65] = .ok (.error (.notUnicode [255]))
    ∧ _var [([65], [66])] [67] = .ok (.error .notPresent) :=
  ⟨(C6_var_wraps_var_os [([65], [66])] [65]).2.1 [66] rfl (by decide),
   (C6_var_wraps_var_os [([65], [255])] [65]).2.2 [255] rfl (by decide),
   (C6_var_wraps_var_os [([65], [66])] [67]).1.mpr rfl⟩

/-- Claim C10: iterating `env::vars()` panics as soon as `next()` reaches a
snapshot pair whose key or value is not valid Unicode; when every pair is
valid Unicode, the iteration yields exactly the `vars_os` snapshot pairs,
converted, in the same order. -/
theorem C10_vars_iteration (snapshot : List (Bytes × Bytes)) :
    ((∀ p ∈ snapshot, validUtf8 p.1 ∧ validUtf8 p.2) →
        vars_collect snapshot = .ok snapshot)
    ∧ (∀ (pre : List (Bytes × Bytes)) (k v : Bytes) (rest : List (Bytes × Bytes)),
        snapshot = pre ++ (k, v) :: rest →
        (∀ p ∈ pre, validUtf8 p.1 ∧ validUtf8 p.2) →
        ¬ (validUtf8 k ∧ validUtf8 v) →
        vars_collect snapshot = .panics) := by
  constructor
  · induction snapshot with
    | nil =>
      intro _
      rfl
    | cons p rest ih =>
      intro hval
      obtain ⟨k, v⟩ := p
      obtain ⟨hk, hv⟩ := hval (k, v) (List.mem_cons_self _ _)
      simp only [vars_collect, osstring_into_string_ok k hk, osstring_into_string_ok v hv]
      rw [ih (fun q hq => hval q (List.mem_cons_of_mem _ hq))]
  · intro pre k v rest heq hpre hbad
    subst heq
    clear* - hpre hbad
    induction pre with
    | nil =>
      by_cases hk : validUtf8 k
      · have hv : ¬ validUtf8 v := fun hv => hbad ⟨hk, hv⟩
        simp only [List.nil_append, vars_collect, osstring_into_string_ok k hk,
          osstring_into_string_err v hv]
      · simp only [List.nil_append, vars_collect, osstring_into_string_err k hk]
    | cons p pre ih =>
      obtain ⟨k0, v0⟩ := p
      obtain ⟨hk0, hv0⟩ := hpre (k0, v0) (List.mem_cons_self _ _)
      have hrec := ih (fun q hq => hpre q (List.mem_cons_of_mem _ hq))
      simp only [List.cons_append, vars_collect, osstring_into_string_ok k0 hk0,
        osstring_into_string_ok v0 hv0]
      rw [show pre.append ((k, v) :: rest) = pre ++ (k, v) :: rest from rfl, hrec]

/-- Witness for C10: an all-valid snapshot is returned converted in order,
and a snapshot whose second pair has a non-UTF-8 value panics. -/
theorem C10_witness :
    vars_collect [([65], [66])] = .ok [([65], [66])]
    ∧ vars_collect [([65], [66]), ([67], [255]), ([68], [69])] = .panics :=
  ⟨(C10_vars_iteration [([65], [66])]).1 (by decide),
   (C10_vars_iteration [([65], [66]), ([67], [255]), ([68], [69])]).2
      [([65], [66])] [67] [255] [([68], [69])] rfl (by decide) (by decide)⟩

end SgxEnv
